import Mathlib

/-!
Verification of the anemone memory-comparison family
(src/csrc/anemone_memcmp.h).

Buffers are modelled as total functions from byte index to memory
contents; `byteAt` truncates to a byte (the value `*(uint8_t*)(p + i)`).
Because the model is total, the C padding precondition (reading up to 15
bytes past the logical length is safe) is automatically satisfied; the
padding-independence properties are stated as congruence in the first
`len` bytes.
-/

namespace Anemone

/-- The byte stored at index `i` of buffer `a` (the C value
`*(uint8_t*)(buf + i)`, an unsigned 0-255 value). -/
def byteAt (a : Nat → Nat) (i : Nat) : Nat := a i % 256

/-- Little-endian value of the `n` bytes starting at `off` (the low byte
first, as a `*(uint64_t*)p` load produces on little-endian hardware). -/
def loadBytes (a : Nat → Nat) (off : Nat) : Nat → Nat
  | 0 => 0
  | n + 1 => byteAt a off + 256 * loadBytes a (off + 1) n

/-- The C expression `*(uint64_t*)(buf + off)`: little-endian load of
eight bytes. -/
def load64 (a : Nat → Nat) (off : Nat) : Nat := loadBytes a off 8

/-- Value of the low `n` bytes of `x` with their byte order reversed. -/
def revBytes : Nat → Nat → Nat
  | 0, _ => 0
  | n + 1, x => x % 256 * 256 ^ n + revBytes n (x / 256)

/-- Modelled from the spec: `anemone_bswap64` (declared in
anemone_twiddle.h, which is not under src/) reverses the byte order of a
64-bit word, producing the "big-endian-equivalent representation" the
spec describes for lexicographic comparison. -/
def anemone_bswap64 (x : Nat) : Nat := revBytes 8 x

/-- Modelled from the spec: `anemone_remainder_mask64` (declared in
anemone_twiddle.h, which is not under src/) has "set bits exactly in the
positions corresponding to the tail's valid bytes" of a little-endian
loaded word: the low `rem` bytes are all ones, the rest zero. -/
def anemone_remainder_mask64 (rem : Nat) : Nat := 256 ^ rem - 1

/-- Big-endian value of the `n` bytes starting at `off` (first byte most
significant): the number whose comparison is lexicographic comparison of
the byte sequence. -/
def loadBE (a : Nat → Nat) (off : Nat) : Nat → Nat
  | 0 => 0
  | n + 1 => byteAt a off * 256 ^ n + loadBE a (off + 1) n

/-- The loop of `anemone_memcmp8` from index `off`, with `n` bytes left:
scan forward one byte at a time; at the first differing byte return the
difference of the unsigned byte values as a signed integer. -/
def memcmp8_from (a b : Nat → Nat) (off : Nat) : Nat → Int
  | 0 => 0
  | n + 1 =>
    if byteAt a off ≠ byteAt b off then
      (byteAt a off : Int) - (byteAt b off : Int)
    else
      memcmp8_from a b (off + 1) n

/-- `anemone_memcmp8` (lines 66-82): byte-tier ordering comparator. -/
def anemone_memcmp8 (a b : Nat → Nat) (len : Nat) : Int :=
  memcmp8_from a b 0 len

/-- The body of `anemone_memcmp64` (lines 87-119) from offset `off` with
`rem` bytes remaining: full 8-byte words while `rem > 8`, comparing
byte-swapped words on mismatch; then the masked tail. -/
def memcmp64_go (a b : Nat → Nat) (off rem : Nat) : Int :=
  if 8 < rem then
    let wa := load64 a off
    let wb := load64 b off
    if wa ≠ wb then
      if anemone_bswap64 wa > anemone_bswap64 wb then 1 else -1
    else
      memcmp64_go a b (off + 8) (rem - 8)
  else if rem = 0 then 0
  else
    let mask := anemone_remainder_mask64 rem
    let wa := anemone_bswap64 (load64 a off &&& mask)
    let wb := anemone_bswap64 (load64 b off &&& mask)
    if wa = wb then 0 else if wa > wb then 1 else -1
termination_by rem
decreasing_by omega

/-- `anemone_memcmp64` (lines 85-133): word-tier ordering comparator. -/
def anemone_memcmp64 (a b : Nat → Nat) (len : Nat) : Int :=
  memcmp64_go a b 0 len

/-- Scan for the first index `j` with `i ≤ j < i + n` where the two
buffers' bytes at `off + j` differ; `16` when none is found. -/
def firstDiffAux (a b : Nat → Nat) (off i : Nat) : Nat → Nat
  | 0 => 16
  | n + 1 =>
    if byteAt a (off + i) ≠ byteAt b (off + i) then i
    else firstDiffAux a b off (i + 1) n

/-- Modelled from the spec: `_mm_cmpestri` with
`_SIDD_UBYTE_OPS | _SIDD_CMP_EQUAL_EACH | _SIDD_NEGATIVE_POLARITY`
(provided by anemone_sse.h, which is not under src/) "yields the index of
the first byte position where the two chunks differ (or a sentinel >=
chunk_len if no difference within the valid region)"; the sentinel is 16.
Only the first `chunk` bytes of each loaded 16-byte register are valid. -/
def cmpestri_neq (a b : Nat → Nat) (off chunk : Nat) : Nat :=
  firstDiffAux a b off 0 chunk

/-- The loop of `anemone_memcmp128` (lines 139-171) from offset `off`
with `len` bytes remaining: chunks of `min len 16` bytes; on a mismatch
return the signed difference of the two bytes at the mismatch index. -/
def memcmp128_go (a b : Nat → Nat) (off len : Nat) : Int :=
  if 0 < len then
    let chunk := min len 16
    let index := cmpestri_neq a b off chunk
    if index < chunk then
      (byteAt a (off + index) : Int) - (byteAt b (off + index) : Int)
    else
      memcmp128_go a b (off + 16) (len - chunk)
  else 0
termination_by len
decreasing_by omega

/-- `anemone_memcmp128` (lines 136-172): vector-tier ordering
comparator. -/
def anemone_memcmp128 (a b : Nat → Nat) (len : Nat) : Int :=
  memcmp128_go a b 0 len

/-- `anemone_memcmp` (lines 175-179): the public ordering dispatcher,
forwarding to the 64-bit tier. -/
def anemone_memcmp (a b : Nat → Nat) (len : Nat) : Int :=
  anemone_memcmp64 a b len

/-- `anemone_memeq8` (lines 190-195): byte-tier equality, reusing the
byte-tier comparator. -/
def anemone_memeq8 (a b : Nat → Nat) (len : Nat) : Int :=
  anemone_memcmp8 a b len

/-- The body of `anemone_memeq64` (lines 201-227): like `memcmp64_go` but
with no endian swap, returning the constant 1 on any mismatch. -/
def memeq64_go (a b : Nat → Nat) (off rem : Nat) : Int :=
  if 8 < rem then
    if load64 a off ≠ load64 b off then 1
    else memeq64_go a b (off + 8) (rem - 8)
  else if rem = 0 then 0
  else
    let mask := anemone_remainder_mask64 rem
    if load64 a off &&& mask ≠ load64 b off &&& mask then 1 else 0
termination_by rem
decreasing_by omega

/-- `anemone_memeq64` (lines 198-228): word-tier equality. -/
def anemone_memeq64 (a b : Nat → Nat) (len : Nat) : Int :=
  memeq64_go a b 0 len

/-- The loop of `anemone_memeq128` (lines 234-263): like `memcmp128_go`
but returning the constant 1 on any mismatch. -/
def memeq128_go (a b : Nat → Nat) (off len : Nat) : Int :=
  if 0 < len then
    let chunk := min len 16
    let index := cmpestri_neq a b off chunk
    if index < chunk then 1
    else memeq128_go a b (off + 16) (len - chunk)
  else 0
termination_by len
decreasing_by omega

/-- `anemone_memeq128` (lines 231-264): vector-tier equality. -/
def anemone_memeq128 (a b : Nat → Nat) (len : Nat) : Int :=
  memeq128_go a b 0 len

/-- `anemone_memeq` (lines 267-271): the public equality dispatcher,
forwarding to the 64-bit tier. -/
def anemone_memeq (a b : Nat → Nat) (len : Nat) : Int :=
  anemone_memeq64 a b len

/-- Number of iterations the full-word `while (rem > 8)` loop of the
word tier performs when no mismatching word is found, as a function of
the initial `rem = len` (lines 87-106 / 201-215). -/
def memcmp64_iters (rem : Nat) : Nat :=
  if 8 < rem then memcmp64_iters (rem - 8) + 1 else 0
termination_by rem
decreasing_by omega

/-- Value of `rem` when the word tier's full-word loop exits and the
tail path (lines 108-119 / 217-227) is reached, as a function of the
initial `rem = len`. -/
def memcmp64_tailRem (rem : Nat) : Nat :=
  if 8 < rem then memcmp64_tailRem (rem - 8) else rem
termination_by rem
decreasing_by omega

/-- Number of buffer loads `anemone_memcmp64` performs, mirroring its
control flow: two `*(uint64_t*)` loads per executed loop iteration and
two at the tail when `rem` is nonzero. -/
def memcmp64_loads (a b : Nat → Nat) (off rem : Nat) : Nat :=
  if 8 < rem then
    if load64 a off ≠ load64 b off then 2
    else 2 + memcmp64_loads a b (off + 8) (rem - 8)
  else if rem = 0 then 0
  else 2
termination_by rem
decreasing_by omega

/-- A concrete buffer built from a list, for instantiating theorems:
bytes of the list then zero padding. -/
def bufOf (l : List Nat) : Nat → Nat := fun i => l.getD i 0

/-! ### Arithmetic helper lemmas -/

lemma byteAt_lt (a : Nat → Nat) (i : Nat) : byteAt a i < 256 :=
  Nat.mod_lt _ (by norm_num)

lemma loadBytes_lt (a : Nat → Nat) : ∀ n off, loadBytes a off n < 256 ^ n := by
  intro n
  induction n with
  | zero => intro off; simp [loadBytes]
  | succ n ih =>
    intro off
    have h1 := byteAt_lt a off
    have h2 := ih (off + 1)
    have h3 : 256 ^ (n + 1) = 256 * 256 ^ n := by ring
    simp only [loadBytes]
    omega

lemma loadBE_lt (a : Nat → Nat) : ∀ n off, loadBE a off n < 256 ^ n := by
  intro n
  induction n with
  | zero => intro off; simp [loadBE]
  | succ n ih =>
    intro off
    simp only [loadBE]
    calc byteAt a off * 256 ^ n + loadBE a (off + 1) n
        < byteAt a off * 256 ^ n + 256 ^ n := by
          have := ih (off + 1); omega
      _ = (byteAt a off + 1) * 256 ^ n := by ring
      _ ≤ 256 * 256 ^ n := Nat.mul_le_mul_right _ (byteAt_lt a off)
      _ = 256 ^ (n + 1) := by ring

lemma lexStep {x y A B k : Nat} (hA : A < k) (hx : x < y) :
    x * k + A < y * k + B := by
  calc x * k + A < x * k + k := by omega
    _ = (x + 1) * k := by ring
    _ ≤ y * k := Nat.mul_le_mul_right k hx
    _ ≤ y * k + B := Nat.le_add_right _ _

lemma digit_eq_iff {x y A B k : Nat} (hA : A < k) (hB : B < k) :
    x * k + A = y * k + B ↔ x = y ∧ A = B := by
  constructor
  · intro h
    rcases Nat.lt_trichotomy x y with hxy | hxy | hxy
    · exact absurd h (Nat.ne_of_lt (lexStep hA hxy))
    · subst hxy; omega
    · exact absurd h.symm (Nat.ne_of_lt (lexStep hB hxy))
  · rintro ⟨rfl, rfl⟩; rfl

lemma digit_lt_iff {x y A B k : Nat} (hA : A < k) (hB : B < k) :
    x * k + A < y * k + B ↔ x < y ∨ (x = y ∧ A < B) := by
  constructor
  · intro h
    rcases Nat.lt_trichotomy x y with hxy | hxy | hxy
    · exact Or.inl hxy
    · subst hxy; right; omega
    · have : y * k + B < x * k + A := lexStep hB hxy
      omega
  · rintro (hxy | ⟨rfl, hAB⟩)
    · exact lexStep hA hxy
    · omega

lemma loadBytes_split (a : Nat → Nat) :
    ∀ m off k, loadBytes a off (m + k) =
      loadBytes a off m + 256 ^ m * loadBytes a (off + m) k := by
  intro m
  induction m with
  | zero => intro off k; simp [loadBytes]
  | succ m ih =>
    intro off k
    have e1 : m + 1 + k = (m + k) + 1 := by omega
    rw [e1]
    simp only [loadBytes]
    rw [ih (off + 1) k]
    have e2 : off + 1 + m = off + (m + 1) := by omega
    rw [e2]
    ring

lemma loadBytes_mod (a : Nat → Nat) (off r n : Nat) (h : r ≤ n) :
    loadBytes a off n % 256 ^ r = loadBytes a off r := by
  have e1 : n = r + (n - r) := by omega
  rw [e1, loadBytes_split a r off (n - r), Nat.add_mul_mod_self_left]
  exact Nat.mod_eq_of_lt (loadBytes_lt a r off)

lemma pow256_eq_pow2 (r : Nat) : (256 : Nat) ^ r = 2 ^ (8 * r) := by
  rw [pow_mul]
  norm_num

lemma land_mask (x r : Nat) : x &&& anemone_remainder_mask64 r = x % 256 ^ r := by
  rw [anemone_remainder_mask64, pow256_eq_pow2]
  exact Nat.and_pow_two_sub_one_eq_mod x (8 * r)

lemma revBytes_zero : ∀ n, revBytes n 0 = 0 := by
  intro n
  induction n with
  | zero => rfl
  | succ n ih => simp [revBytes, ih]

lemma revBytes_loadBytes (a : Nat → Nat) :
    ∀ n off, revBytes n (loadBytes a off n) = loadBE a off n := by
  intro n
  induction n with
  | zero => intro off; rfl
  | succ n ih =>
    intro off
    simp only [loadBytes, revBytes, loadBE]
    have h1 := byteAt_lt a off
    have e1 : (byteAt a off + 256 * loadBytes a (off + 1) n) % 256 = byteAt a off := by
      rw [Nat.add_mul_mod_self_left]
      exact Nat.mod_eq_of_lt h1
    have e2 : (byteAt a off + 256 * loadBytes a (off + 1) n) / 256 =
        loadBytes a (off + 1) n := by
      rw [Nat.add_mul_div_left _ _ (by norm_num : (0:Nat) < 256)]
      simp [Nat.div_eq_of_lt h1]
    rw [e1, e2, ih (off + 1)]

lemma revBytes_small (r : Nat) :
    ∀ n x, x < 256 ^ r → r ≤ n → revBytes n x = revBytes r x * 256 ^ (n - r) := by
  induction r with
  | zero =>
    intro n x hx _
    have hx0 : x = 0 := by simpa using hx
    subst hx0
    simp [revBytes_zero, revBytes]
  | succ r ih =>
    intro n x hx hn
    obtain ⟨m, rfl⟩ : ∃ m, n = m + 1 := ⟨n - 1, by omega⟩
    have hrm : r ≤ m := by omega
    have hdiv : x / 256 < 256 ^ r := by
      rw [Nat.div_lt_iff_lt_mul (by norm_num : (0:Nat) < 256)]
      calc x < 256 ^ (r + 1) := hx
        _ = 256 ^ r * 256 := by ring
    simp only [revBytes]
    rw [ih m (x / 256) hdiv hrm]
    have e1 : m + 1 - (r + 1) = m - r := by omega
    rw [e1]
    have e2 : (256 : Nat) ^ m = 256 ^ r * 256 ^ (m - r) := by
      rw [← pow_add]
      congr 1
      omega
    rw [e2]
    ring

lemma bswap64_loadBytes_small (a : Nat → Nat) (off r : Nat) (h : r ≤ 8) :
    anemone_bswap64 (loadBytes a off r) = loadBE a off r * 256 ^ (8 - r) := by
  rw [anemone_bswap64, revBytes_small r 8 _ (loadBytes_lt a r off) h,
    revBytes_loadBytes]

lemma bswap64_load64 (a : Nat → Nat) (off : Nat) :
    anemone_bswap64 (load64 a off) = loadBE a off 8 := by
  rw [load64, anemone_bswap64, revBytes_loadBytes]

/-! ### Byte-scan lemmas -/

lemma loadBytes_eq_iff (a b : Nat → Nat) :
    ∀ n off, loadBytes a off n = loadBytes b off n ↔
      ∀ i, i < n → byteAt a (off + i) = byteAt b (off + i) := by
  intro n
  induction n with
  | zero => intro off; simp [loadBytes]
  | succ n ih =>
    intro off
    simp only [loadBytes]
    have h1 := byteAt_lt a off
    have h2 := byteAt_lt b off
    constructor
    · intro h
      have hsplit : byteAt a off = byteAt b off ∧
          loadBytes a (off + 1) n = loadBytes b (off + 1) n := by omega
      intro i hi
      match i with
      | 0 => simpa using hsplit.1
      | j + 1 =>
        have hj := (ih (off + 1)).mp hsplit.2 j (by omega)
        have e : off + 1 + j = off + (j + 1) := by omega
        rwa [e] at hj
    · intro h
      have hhead : byteAt a off = byteAt b off := by simpa using h 0 (by omega)
      have htail : loadBytes a (off + 1) n = loadBytes b (off + 1) n := by
        refine (ih (off + 1)).mpr ?_
        intro j hj
        have e : off + 1 + j = off + (j + 1) := by omega
        rw [e]
        exact h (j + 1) (by omega)
      omega

lemma load64_eq_iff (a b : Nat → Nat) (off : Nat) :
    load64 a off = load64 b off ↔
      ∀ i, i < 8 → byteAt a (off + i) = byteAt b (off + i) :=
  loadBytes_eq_iff a b 8 off

/-- The big-endian value comparison of a byte range agrees with the
byte-tier scan: equal values exactly when the scan returns zero, and
smaller value exactly when the scan returns a negative result. -/
lemma loadBE_cmp (a b : Nat → Nat) :
    ∀ n off,
      (loadBE a off n = loadBE b off n ↔ memcmp8_from a b off n = 0) ∧
      (loadBE a off n < loadBE b off n ↔ memcmp8_from a b off n < 0) := by
  intro n
  induction n with
  | zero => intro off; simp [loadBE, memcmp8_from]
  | succ n ih =>
    intro off
    have hA := loadBE_lt a n (off + 1)
    have hB := loadBE_lt b n (off + 1)
    simp only [loadBE, memcmp8_from]
    by_cases hh : byteAt a off = byteAt b off
    · rw [hh]
      simp only [ne_eq, hh, not_true_eq_false, if_false]
      have h1 := (ih (off + 1)).1
      have h2 := (ih (off + 1)).2
      constructor
      · rw [← h1]; omega
      · rw [← h2]; omega
    · simp only [ne_eq, hh, not_false_eq_true, if_true]
      constructor
      · rw [digit_eq_iff hA hB]
        constructor
        · intro hc; exact absurd hc.1 hh
        · intro hz
          exfalso
          apply hh
          omega
      · rw [digit_lt_iff hA hB]
        constructor
        · intro hc
          rcases hc with hlt | ⟨heq, _⟩
          · omega
          · exact absurd heq hh
        · intro hz
          left
          omega

/-- Splitting a byte-tier scan of `m + n` bytes at position `m`. -/
lemma memcmp8_split (a b : Nat → Nat) :
    ∀ m off n, memcmp8_from a b off (m + n) =
      if memcmp8_from a b off m = 0 then memcmp8_from a b (off + m) n
      else memcmp8_from a b off m := by
  intro m
  induction m with
  | zero => intro off n; simp [memcmp8_from]
  | succ m ih =>
    intro off n
    have e1 : m + 1 + n = (m + n) + 1 := by omega
    rw [e1]
    simp only [memcmp8_from]
    by_cases hh : byteAt a off = byteAt b off
    · simp only [ne_eq, hh, not_true_eq_false, if_false]
      rw [ih (off + 1) n]
      have e2 : off + 1 + m = off + (m + 1) := by omega
      rw [e2]
    · have hne : (byteAt a off : Int) - (byteAt b off : Int) ≠ 0 := by
        have := byteAt_lt a off
        have := byteAt_lt b off
        omega
      simp only [ne_eq, hh, not_false_eq_true, if_true, hne, if_false]

lemma memcmp8_from_zero_iff (a b : Nat → Nat) :
    ∀ n off, memcmp8_from a b off n = 0 ↔
      ∀ i, i < n → byteAt a (off + i) = byteAt b (off + i) := by
  intro n
  induction n with
  | zero => intro off; simp [memcmp8_from]
  | succ n ih =>
    intro off
    simp only [memcmp8_from]
    by_cases hh : byteAt a off = byteAt b off
    · simp only [ne_eq, hh, not_true_eq_false, if_false]
      rw [ih (off + 1)]
      constructor
      · intro h i hi
        match i with
        | 0 => simpa using hh
        | j + 1 =>
          have hj := h j (by omega)
          have e : off + 1 + j = off + (j + 1) := by omega
          rwa [e] at hj
      · intro h j hj
        have e : off + 1 + j = off + (j + 1) := by omega
        rw [e]
        exact h (j + 1) (by omega)
    · have hne : (byteAt a off : Int) - (byteAt b off : Int) ≠ 0 := by
        have := byteAt_lt a off
        have := byteAt_lt b off
        omega
      simp only [ne_eq, hh, not_false_eq_true, if_true]
      constructor
      · intro h; exact absurd h hne
      · intro h
        exact absurd (by simpa using h 0 (by omega)) hh

/-- If the first difference between the buffers is at index `off + i`
with `i < n`, the byte-tier scan returns exactly the signed difference of
the two bytes there. -/
lemma memcmp8_first_diff (a b : Nat → Nat) :
    ∀ i off n, (∀ j, j < i → byteAt a (off + j) = byteAt b (off + j)) →
      byteAt a (off + i) ≠ byteAt b (off + i) → i < n →
      memcmp8_from a b off n =
        (byteAt a (off + i) : Int) - (byteAt b (off + i) : Int) := by
  intro i
  induction i with
  | zero =>
    intro off n _ hdiff hlt
    obtain ⟨m, rfl⟩ : ∃ m, n = m + 1 := ⟨n - 1, by omega⟩
    simp only [memcmp8_from]
    have h0 : byteAt a off ≠ byteAt b off := by simpa using hdiff
    simp only [ne_eq, h0, not_false_eq_true, if_true]
    simp
  | succ i ih =>
    intro off n heq hdiff hlt
    obtain ⟨m, rfl⟩ : ∃ m, n = m + 1 := ⟨n - 1, by omega⟩
    simp only [memcmp8_from]
    have h0 : byteAt a off = byteAt b off := by simpa using heq 0 (by omega)
    simp only [ne_eq, h0, not_true_eq_false, if_false]
    have e : off + 1 + i = off + (i + 1) := by omega
    rw [← e] at hdiff ⊢
    refine ih (off + 1) m ?_ hdiff (by omega)
    intro j hj
    have e2 : off + 1 + j = off + (j + 1) := by omega
    rw [e2]
    exact heq (j + 1) (by omega)

lemma memcmp8_from_antisym (a b : Nat → Nat) :
    ∀ n off, memcmp8_from a b off n = -memcmp8_from b a off n := by
  intro n
  induction n with
  | zero => intro off; simp [memcmp8_from]
  | succ n ih =>
    intro off
    simp only [memcmp8_from]
    by_cases hh : byteAt a off = byteAt b off
    · rw [hh]
      simp only [ne_eq, not_true_eq_false, if_false]
      exact ih (off + 1)
    · have hh2 : byteAt b off ≠ byteAt a off := fun h => hh h.symm
      simp only [ne_eq, hh, hh2, not_false_eq_true, if_true]
      ring

/-! ### Word-tier lemmas -/

lemma mask_tail (c : Nat → Nat) (off rem : Nat) (h : rem ≤ 8) :
    load64 c off &&& anemone_remainder_mask64 rem = loadBytes c off rem := by
  rw [land_mask, load64, loadBytes_mod c off rem 8 h]

/-- Sign agreement of the word tier's loop body with the byte-tier scan,
for every offset and remaining length. -/
lemma memcmp64_go_sign (a b : Nat → Nat) :
    ∀ rem off,
      (memcmp64_go a b off rem = 0 ↔ memcmp8_from a b off rem = 0) ∧
      (memcmp64_go a b off rem < 0 ↔ memcmp8_from a b off rem < 0) ∧
      (0 < memcmp64_go a b off rem ↔ 0 < memcmp8_from a b off rem) := by
  intro rem
  induction rem using Nat.strong_induction_on with
  | _ rem ih =>
    intro off
    rw [memcmp64_go]
    by_cases h8 : 8 < rem
    · simp only [h8, if_true]
      by_cases hw : load64 a off = load64 b off
      · simp only [hw, ne_eq, not_true_eq_false, if_false]
        have hbytes : ∀ i, i < 8 → byteAt a (off + i) = byteAt b (off + i) :=
          (load64_eq_iff a b off).mp hw
        have hfirst : memcmp8_from a b off 8 = 0 :=
          (memcmp8_from_zero_iff a b 8 off).mpr hbytes
        have hsplit : memcmp8_from a b off rem =
            memcmp8_from a b (off + 8) (rem - 8) := by
          have e : rem = 8 + (rem - 8) := by omega
          conv_lhs => rw [e]
          rw [memcmp8_split]
          simp [hfirst]
        rw [hsplit]
        exact ih (rem - 8) (by omega) (off + 8)
      · simp only [hw, ne_eq, not_false_eq_true, if_true]
        rw [bswap64_load64, bswap64_load64]
        have hne8 : memcmp8_from a b off 8 ≠ 0 := by
          intro h0
          exact hw ((load64_eq_iff a b off).mpr
            ((memcmp8_from_zero_iff a b 8 off).mp h0))
        have hsplit : memcmp8_from a b off rem = memcmp8_from a b off 8 := by
          have e : rem = 8 + (rem - 8) := by omega
          conv_lhs => rw [e]
          rw [memcmp8_split]
          simp [hne8]
        rw [hsplit]
        have hcmp := loadBE_cmp a b 8 off
        by_cases hgt : loadBE b off 8 < loadBE a off 8
        · have h1 : ¬ memcmp8_from a b off 8 = 0 := by
            rw [← hcmp.1]; omega
          have h2 : ¬ memcmp8_from a b off 8 < 0 := by
            rw [← hcmp.2]; omega
          simp only [gt_iff_lt, hgt, if_true]
          refine ⟨by omega, by omega, by omega⟩
        · have hne : loadBE a off 8 ≠ loadBE b off 8 := by
            rw [ne_eq, hcmp.1]; exact hne8
          have hlt : loadBE a off 8 < loadBE b off 8 := by omega
          have h2 : memcmp8_from a b off 8 < 0 := hcmp.2.mp hlt
          simp only [gt_iff_lt, hgt, if_false]
          refine ⟨by omega, by omega, by omega⟩
    · simp only [h8, if_false]
      by_cases h0 : rem = 0
      · subst h0
        simp [memcmp8_from]
      · simp only [h0, if_false]
        have hr8 : rem ≤ 8 := by omega
        rw [mask_tail a off rem hr8, mask_tail b off rem hr8,
          bswap64_loadBytes_small a off rem hr8,
          bswap64_loadBytes_small b off rem hr8]
        have hk : 0 < 256 ^ (8 - rem) := Nat.pos_pow_of_pos _ (by norm_num)
        have heq : loadBE a off rem * 256 ^ (8 - rem) =
            loadBE b off rem * 256 ^ (8 - rem) ↔
            loadBE a off rem = loadBE b off rem := by
          constructor
          · intro h; exact Nat.eq_of_mul_eq_mul_right hk h
          · intro h; rw [h]
        have hlt : loadBE b off rem * 256 ^ (8 - rem) <
            loadBE a off rem * 256 ^ (8 - rem) ↔
            loadBE b off rem < loadBE a off rem :=
          Nat.mul_lt_mul_right hk
        have hcmp := loadBE_cmp a b rem off
        by_cases he : loadBE a off rem = loadBE b off rem
        · have hz : memcmp8_from a b off rem = 0 := hcmp.1.mp he
          rw [if_pos (heq.mpr he)]
          refine ⟨by omega, by omega, by omega⟩
        · have hne2 : ¬ (loadBE a off rem * 256 ^ (8 - rem) =
              loadBE b off rem * 256 ^ (8 - rem)) := fun h => he (heq.mp h)
          have hnz : memcmp8_from a b off rem ≠ 0 :=
            fun hcontra => he (hcmp.1.mpr hcontra)
          simp only [hne2, if_false]
          by_cases hgt : loadBE b off rem < loadBE a off rem
          · have h2 : ¬ memcmp8_from a b off rem < 0 := by
              rw [← hcmp.2]; omega
            simp only [gt_iff_lt, hlt, hgt, if_true]
            refine ⟨by omega, by omega, by omega⟩
          · have hlt2 : loadBE a off rem < loadBE b off rem := by omega
            have h2 : memcmp8_from a b off rem < 0 := hcmp.2.mp hlt2
            simp only [gt_iff_lt, hlt, hgt, if_false]
            refine ⟨by omega, by omega, by omega⟩

/-- The word-tier equality body returns zero exactly when the remaining
`rem` bytes of the two buffers coincide. -/
lemma memeq64_go_zero_iff (a b : Nat → Nat) :
    ∀ rem off, memeq64_go a b off rem = 0 ↔
      ∀ i, i < rem → byteAt a (off + i) = byteAt b (off + i) := by
  intro rem
  induction rem using Nat.strong_induction_on with
  | _ rem ih =>
    intro off
    rw [memeq64_go]
    by_cases h8 : 8 < rem
    · simp only [h8, if_true]
      by_cases hw : load64 a off = load64 b off
      · simp only [hw, ne_eq, not_true_eq_false, if_false]
        rw [ih (rem - 8) (by omega) (off + 8)]
        have hbytes := (load64_eq_iff a b off).mp hw
        constructor
        · intro h i hi
          by_cases hi8 : i < 8
          · exact hbytes i hi8
          · have hgot := h (i - 8) (by omega)
            have e : off + 8 + (i - 8) = off + i := by omega
            rwa [e] at hgot
        · intro h j hj
          have e : off + 8 + j = off + (j + 8) := by omega
          rw [e]
          exact h (j + 8) (by omega)
      · simp only [hw, ne_eq, not_false_eq_true, if_true]
        refine iff_of_false one_ne_zero fun h => ?_
        exact hw ((load64_eq_iff a b off).mpr fun i hi => h i (by omega))
    · simp only [h8, if_false]
      by_cases h0 : rem = 0
      · subst h0; simp
      · simp only [h0, if_false]
        have hr8 : rem ≤ 8 := by omega
        rw [mask_tail a off rem hr8, mask_tail b off rem hr8]
        by_cases hm : loadBytes a off rem = loadBytes b off rem
        · simp only [ne_eq, hm, not_true_eq_false, if_false]
          exact iff_of_true trivial ((loadBytes_eq_iff a b rem off).mp hm)
        · simp only [ne_eq, hm, not_false_eq_true, if_true]
          exact iff_of_false one_ne_zero
            fun h => hm ((loadBytes_eq_iff a b rem off).mpr h)

/-- Complete case analysis of the first-mismatch scan: either no
difference in the window (result 16), or the result is the first index
at which the buffers differ. -/
lemma firstDiffAux_cases (a b : Nat → Nat) (off : Nat) :
    ∀ n i, (firstDiffAux a b off i n = 16 ∧
        ∀ j, i ≤ j → j < i + n → byteAt a (off + j) = byteAt b (off + j)) ∨
      (∃ k, firstDiffAux a b off i n = k ∧ i ≤ k ∧ k < i + n ∧
        byteAt a (off + k) ≠ byteAt b (off + k) ∧
        ∀ j, i ≤ j → j < k → byteAt a (off + j) = byteAt b (off + j)) := by
  intro n
  induction n with
  | zero =>
    intro i
    left
    exact ⟨rfl, fun j hj1 hj2 => absurd hj2 (by omega)⟩
  | succ n ih =>
    intro i
    simp only [firstDiffAux]
    by_cases hh : byteAt a (off + i) = byteAt b (off + i)
    · simp only [ne_eq, hh, not_true_eq_false, if_false]
      rcases ih (i + 1) with ⟨h16, hall⟩ | ⟨k, hk, hik, hkn, hkd, hkeq⟩
      · left
        refine ⟨h16, fun j hj1 hj2 => ?_⟩
        by_cases hji : j = i
        · subst hji; exact hh
        · exact hall j (by omega) (by omega)
      · right
        refine ⟨k, hk, by omega, by omega, hkd, fun j hj1 hj2 => ?_⟩
        by_cases hji : j = i
        · subst hji; exact hh
        · exact hkeq j (by omega) hj2
    · simp only [ne_eq, hh, not_false_eq_true, if_true]
      right
      exact ⟨i, rfl, Nat.le_refl i, by omega, hh,
        fun j hj1 hj2 => absurd hj2 (by omega)⟩

/-- The vector-tier loop reproduces the byte-tier scan exactly. -/
lemma memcmp128_go_eq (a b : Nat → Nat) :
    ∀ len off, memcmp128_go a b off len = memcmp8_from a b off len := by
  intro len
  induction len using Nat.strong_induction_on with
  | _ len ih =>
    intro off
    rw [memcmp128_go]
    by_cases hpos : 0 < len
    · simp only [hpos, if_true, cmpestri_neq]
      rcases firstDiffAux_cases a b off (min len 16) 0 with
        ⟨h16, hall⟩ | ⟨k, hk, _, hkn, hkd, hkeq⟩
      · rw [h16, if_neg (by omega : ¬ 16 < min len 16)]
        by_cases h16len : 16 ≤ len
        · have hmin : min len 16 = 16 := by omega
          rw [hmin] at hall ⊢
          rw [ih (len - 16) (by omega) (off + 16)]
          have hfirst : memcmp8_from a b off 16 = 0 :=
            (memcmp8_from_zero_iff a b 16 off).mpr
              fun i hi => hall i (by omega) (by omega)
          have e : len = 16 + (len - 16) := by omega
          conv_rhs => rw [e]
          rw [memcmp8_split]
          simp [hfirst]
        · have hmin : min len 16 = len := by omega
          rw [hmin] at hall ⊢
          rw [Nat.sub_self, memcmp128_go]
          simp only [Nat.lt_irrefl, if_false]
          symm
          exact (memcmp8_from_zero_iff a b len off).mpr
            fun i hi => hall i (by omega) (by omega)
      · rw [hk, if_pos (by omega : k < min len 16)]
        symm
        exact memcmp8_first_diff a b k off len
          (fun j hj => hkeq j (by omega) hj) hkd (by omega)
    · simp only [hpos, if_false]
      have h0 : len = 0 := by omega
      subst h0
      simp [memcmp8_from]

/-- The vector-tier equality loop returns zero exactly when the `len`
bytes starting at `off` coincide. -/
lemma memeq128_go_zero_iff (a b : Nat → Nat) :
    ∀ len off, memeq128_go a b off len = 0 ↔
      ∀ i, i < len → byteAt a (off + i) = byteAt b (off + i) := by
  intro len
  induction len using Nat.strong_induction_on with
  | _ len ih =>
    intro off
    rw [memeq128_go]
    by_cases hpos : 0 < len
    · simp only [hpos, if_true, cmpestri_neq]
      rcases firstDiffAux_cases a b off (min len 16) 0 with
        ⟨h16, hall⟩ | ⟨k, hk, _, hkn, hkd, hkeq⟩
      · simp only [h16]
        rw [if_neg (by omega : ¬ 16 < min len 16)]
        by_cases h16len : 16 ≤ len
        · have hmin : min len 16 = 16 := by omega
          rw [hmin] at hall ⊢
          rw [ih (len - 16) (by omega) (off + 16)]
          constructor
          · intro h i hi
            by_cases hi16 : i < 16
            · exact hall i (by omega) (by omega)
            · have hgot := h (i - 16) (by omega)
              have e : off + 16 + (i - 16) = off + i := by omega
              rwa [e] at hgot
          · intro h j hj
            have e : off + 16 + j = off + (j + 16) := by omega
            rw [e]
            exact h (j + 16) (by omega)
        · have hmin : min len 16 = len := by omega
          rw [hmin] at hall ⊢
          rw [Nat.sub_self, memeq128_go]
          simp only [Nat.lt_irrefl, if_false]
          exact iff_of_true trivial fun i hi => hall i (by omega) (by omega)
      · simp only [hk]
        rw [if_pos (by omega : k < min len 16)]
        exact iff_of_false one_ne_zero fun h => hkd (h k (by omega))
    · simp only [hpos, if_false]
      exact iff_of_true trivial fun i hi => absurd hi (by omega)

/-- The word-tier comparator body only ever returns -1, 0 or 1. -/
lemma memcmp64_go_range (a b : Nat → Nat) :
    ∀ rem off, memcmp64_go a b off rem = -1 ∨ memcmp64_go a b off rem = 0 ∨
      memcmp64_go a b off rem = 1 := by
  intro rem
  induction rem using Nat.strong_induction_on with
  | _ rem ih =>
    intro off
    rw [memcmp64_go]
    by_cases h1 : 8 < rem
    · simp only [h1, if_true]
      by_cases h2 : load64 a off = load64 b off
      · simp only [h2, ne_eq, not_true_eq_false, if_false]
        exact ih (rem - 8) (by omega) (off + 8)
      · simp only [h2, ne_eq, not_false_eq_true, if_true]
        by_cases h3 : anemone_bswap64 (load64 b off) < anemone_bswap64 (load64 a off)
        · simp only [gt_iff_lt, h3, if_true]
          exact Or.inr (Or.inr trivial)
        · simp only [gt_iff_lt, h3, if_false]
          exact Or.inl trivial
    · simp only [h1, if_false]
      by_cases h4 : rem = 0
      · simp only [h4, if_true]
        exact Or.inr (Or.inl trivial)
      · simp only [h4, if_false]
        by_cases h5 : anemone_bswap64 (load64 a off &&& anemone_remainder_mask64 rem) =
            anemone_bswap64 (load64 b off &&& anemone_remainder_mask64 rem)
        · simp only [h5, if_true]
          exact Or.inr (Or.inl trivial)
        · rw [if_neg h5]
          by_cases h6 : anemone_bswap64 (load64 b off &&& anemone_remainder_mask64 rem) <
              anemone_bswap64 (load64 a off &&& anemone_remainder_mask64 rem)
          · simp only [gt_iff_lt, h6, if_true]
            exact Or.inr (Or.inr trivial)
          · simp only [gt_iff_lt, h6, if_false]
            exact Or.inl trivial

/-- The word-tier equality body only ever returns 0 or 1. -/
lemma memeq64_go_range (a b : Nat → Nat) :
    ∀ rem off, memeq64_go a b off rem = 0 ∨ memeq64_go a b off rem = 1 := by
  intro rem
  induction rem using Nat.strong_induction_on with
  | _ rem ih =>
    intro off
    rw [memeq64_go]
    by_cases h1 : 8 < rem
    · simp only [h1, if_true]
      by_cases h2 : load64 a off = load64 b off
      · simp only [h2, ne_eq, not_true_eq_false, if_false]
        exact ih (rem - 8) (by omega) (off + 8)
      · simp only [h2, ne_eq, not_false_eq_true, if_true]
        exact Or.inr trivial
    · simp only [h1, if_false]
      by_cases h4 : rem = 0
      · simp only [h4, if_true]
        exact Or.inl trivial
      · simp only [h4, if_false]
        by_cases h5 : load64 a off &&& anemone_remainder_mask64 rem =
            load64 b off &&& anemone_remainder_mask64 rem
        · simp only [h5, ne_eq, not_true_eq_false, if_false]
          exact Or.inl trivial
        · simp only [h5, ne_eq, not_false_eq_true, if_true]
          exact Or.inr trivial

/-- The vector-tier equality body only ever returns 0 or 1. -/
lemma memeq128_go_range (a b : Nat → Nat) :
    ∀ len off, memeq128_go a b off len = 0 ∨ memeq128_go a b off len = 1 := by
  intro len
  induction len using Nat.strong_induction_on with
  | _ len ih =>
    intro off
    rw [memeq128_go]
    by_cases h1 : 0 < len
    · simp only [h1, if_true]
      by_cases h2 : cmpestri_neq a b off (min len 16) < min len 16
      · simp only [h2, if_true]
        exact Or.inr trivial
      · simp only [h2, if_false]
        exact ih (len - min len 16) (by omega) (off + 16)
    · simp only [h1, if_false]
      exact Or.inl trivial

/-! ### Congruence in the first `len` bytes (padding independence) -/

lemma byteAt_congr {a1 a2 : Nat → Nat} {i : Nat} (h : a1 i = a2 i) :
    byteAt a1 i = byteAt a2 i := by
  rw [byteAt, byteAt, h]

lemma memcmp8_from_congr {a1 a2 b1 b2 : Nat → Nat} :
    ∀ n off, (∀ i, i < n → a1 (off + i) = a2 (off + i)) →
      (∀ i, i < n → b1 (off + i) = b2 (off + i)) →
      memcmp8_from a1 b1 off n = memcmp8_from a2 b2 off n := by
  intro n
  induction n with
  | zero => intro off _ _; rfl
  | succ n ih =>
    intro off hA hB
    have ea : byteAt a1 off = byteAt a2 off := by
      have := hA 0 (by omega)
      simp only [Nat.add_zero] at this
      exact byteAt_congr this
    have eb : byteAt b1 off = byteAt b2 off := by
      have := hB 0 (by omega)
      simp only [Nat.add_zero] at this
      exact byteAt_congr this
    simp only [memcmp8_from, ea, eb]
    by_cases hh : byteAt a2 off = byteAt b2 off
    · simp only [ne_eq, hh, not_true_eq_false, if_false]
      refine ih (off + 1) (fun i hi => ?_) (fun i hi => ?_)
      · have e : off + 1 + i = off + (i + 1) := by omega
        rw [e]
        exact hA (i + 1) (by omega)
      · have e : off + 1 + i = off + (i + 1) := by omega
        rw [e]
        exact hB (i + 1) (by omega)
    · simp only [ne_eq, hh, not_false_eq_true, if_true]

lemma byte_pred_congr {a1 a2 b1 b2 : Nat → Nat} {len : Nat}
    (hA : ∀ i, i < len → a1 i = a2 i) (hB : ∀ i, i < len → b1 i = b2 i) :
    (∀ i, i < len → byteAt a1 i = byteAt b1 i) ↔
      (∀ i, i < len → byteAt a2 i = byteAt b2 i) := by
  constructor
  · intro h i hi
    rw [← byteAt_congr (hA i hi), ← byteAt_congr (hB i hi)]
    exact h i hi
  · intro h i hi
    rw [byteAt_congr (hA i hi), byteAt_congr (hB i hi)]
    exact h i hi

/-! ### Closed forms for the word-tier loop bookkeeping -/

lemma memcmp64_iters_eq : ∀ rem, memcmp64_iters rem = (rem - 1) / 8 := by
  intro rem
  induction rem using Nat.strong_induction_on with
  | _ rem ih =>
    rw [memcmp64_iters]
    by_cases h8 : 8 < rem
    · simp only [h8, if_true]
      rw [ih (rem - 8) (by omega)]
      have e1 : rem - 1 = (rem - 8 - 1) + 8 := by omega
      rw [e1, Nat.add_div_right _ (by norm_num)]
    · simp only [h8, if_false]
      symm
      exact Nat.div_eq_of_lt (by omega)

lemma memcmp64_tailRem_eq :
    ∀ rem, memcmp64_tailRem rem = rem - 8 * ((rem - 1) / 8) := by
  intro rem
  induction rem using Nat.strong_induction_on with
  | _ rem ih =>
    rw [memcmp64_tailRem]
    by_cases h8 : 8 < rem
    · simp only [h8, if_true]
      rw [ih (rem - 8) (by omega)]
      have e1 : rem - 1 = (rem - 8 - 1) + 8 := by omega
      rw [e1, Nat.add_div_right _ (by norm_num)]
      have hle : 8 * ((rem - 8 - 1) / 8) ≤ rem - 8 - 1 :=
        Nat.mul_div_le (rem - 8 - 1) 8
      omega
    · simp only [h8, if_false]
      have : (rem - 1) / 8 = 0 := Nat.div_eq_of_lt (by omega)
      omega

/-! ### Zero-length behaviour -/

lemma memcmp64_go_zero (a b : Nat → Nat) (off : Nat) :
    memcmp64_go a b off 0 = 0 := by
  rw [memcmp64_go]
  norm_num

lemma memeq64_go_zero (a b : Nat → Nat) (off : Nat) :
    memeq64_go a b off 0 = 0 := by
  rw [memeq64_go]
  norm_num

lemma memcmp128_go_zero (a b : Nat → Nat) (off : Nat) :
    memcmp128_go a b off 0 = 0 := by
  rw [memcmp128_go]
  norm_num

lemma memeq128_go_zero (a b : Nat → Nat) (off : Nat) :
    memeq128_go a b off 0 = 0 := by
  rw [memeq128_go]
  norm_num

lemma memcmp64_loads_zero (a b : Nat → Nat) (off : Nat) :
    memcmp64_loads a b off 0 = 0 := by
  rw [memcmp64_loads]
  norm_num

/-! ### Packaged characterizations at offset zero -/

lemma memeq64_zero_iff0 (a b : Nat → Nat) (len : Nat) :
    anemone_memeq64 a b len = 0 ↔ ∀ i, i < len → byteAt a i = byteAt b i := by
  have h := memeq64_go_zero_iff a b len 0
  simpa [anemone_memeq64] using h

lemma memeq128_zero_iff0 (a b : Nat → Nat) (len : Nat) :
    anemone_memeq128 a b len = 0 ↔ ∀ i, i < len → byteAt a i = byteAt b i := by
  have h := memeq128_go_zero_iff a b len 0
  simpa [anemone_memeq128] using h

lemma memcmp8_zero_iff0 (a b : Nat → Nat) (len : Nat) :
    anemone_memcmp8 a b len = 0 ↔ ∀ i, i < len → byteAt a i = byteAt b i := by
  have h := memcmp8_from_zero_iff a b len 0
  simpa [anemone_memcmp8] using h

/-- A value known to be 0 or 1, zero exactly on a fixed condition, is
determined by that condition. -/
lemma eqval_congr {x y : Int} {P Q : Prop} (hx : x = 0 ∨ x = 1)
    (hy : y = 0 ∨ y = 1) (hxP : x = 0 ↔ P) (hyQ : y = 0 ↔ Q)
    (hPQ : P ↔ Q) : x = y := by
  by_cases hp : P
  · rw [hxP.mpr hp, hyQ.mpr (hPQ.mp hp)]
  · have hx1 : x = 1 := by
      rcases hx with h | h
      · exact absurd (hxP.mp h) hp
      · exact h
    have hy1 : y = 1 := by
      rcases hy with h | h
      · exact absurd (hyQ.mp h) fun q => hp (hPQ.mpr q)
      · exact h
    rw [hx1, hy1]

/-! ### Claim theorems -/

/-- C1: for every pair of equal-length buffers, the word-tier ordering
comparator `anemone_memcmp64` agrees in sign with the byte-tier
reference `anemone_memcmp8`: its result is zero exactly when the
reference is zero, negative exactly when the reference is negative, and
positive exactly when the reference is positive. (Buffers are total
functions, so the padding precondition is automatic in the model.) -/
theorem claim_C1_memcmp64_sign_agrees_memcmp8 (a b : Nat → Nat) (len : Nat) :
    (anemone_memcmp64 a b len = 0 ↔ anemone_memcmp8 a b len = 0) ∧
    (anemone_memcmp64 a b len < 0 ↔ anemone_memcmp8 a b len < 0) ∧
    (0 < anemone_memcmp64 a b len ↔ 0 < anemone_memcmp8 a b len) :=
  memcmp64_go_sign a b len 0

/-- C2: the byte-tier comparator `anemone_memcmp8` returns, at the first
index `i < len` where the buffers' bytes differ, exactly the unsigned
byte of the first buffer minus the unsigned byte of the second, and
returns exactly zero when the first `len` bytes are identical. -/
theorem claim_C2_memcmp8_exact (a b : Nat → Nat) (len i : Nat) :
    ((∀ j, j < len → byteAt a j = byteAt b j) → anemone_memcmp8 a b len = 0) ∧
    (i < len → (∀ j, j < i → byteAt a j = byteAt b j) →
      byteAt a i ≠ byteAt b i →
      anemone_memcmp8 a b len = (byteAt a i : Int) - (byteAt b i : Int)) := by
  constructor
  · intro h
    exact (memcmp8_zero_iff0 a b len).mpr h
  · intro hi hfirst hdiff
    have h := memcmp8_first_diff a b i 0 len
      (fun j hj => by simpa using hfirst j hj) (by simpa using hdiff) hi
    simpa [anemone_memcmp8] using h

/-- C2 witness: buffers [5,9] and [5,7] at length 2 differ first at
index 1 and the comparator returns 9 - 7 = 2; identical buffers give 0. -/
theorem claim_C2_witness :
    ((∀ j, j < 2 → byteAt (bufOf [5, 9]) j = byteAt (bufOf [5, 9]) j) →
      anemone_memcmp8 (bufOf [5, 9]) (bufOf [5, 9]) 2 = 0) ∧
    (1 < 2 ∧ (∀ j, j < 1 → byteAt (bufOf [5, 9]) j = byteAt (bufOf [5, 7]) j) ∧
      byteAt (bufOf [5, 9]) 1 ≠ byteAt (bufOf [5, 7]) 1 ∧
      anemone_memcmp8 (bufOf [5, 9]) (bufOf [5, 7]) 2 =
        (byteAt (bufOf [5, 9]) 1 : Int) - (byteAt (bufOf [5, 7]) 1 : Int)) :=
  ⟨(claim_C2_memcmp8_exact (bufOf [5, 9]) (bufOf [5, 9]) 2 0).1,
   by decide,
   by decide,
   by decide,
   (claim_C2_memcmp8_exact (bufOf [5, 9]) (bufOf [5, 7]) 2 1).2
     (by decide) (by decide) (by decide)⟩

/-- C3: the vector-tier ordering comparator `anemone_memcmp128` returns
exactly the same value as the byte-tier reference on every input. -/
theorem claim_C3_memcmp128_eq_memcmp8 (a b : Nat → Nat) (len : Nat) :
    anemone_memcmp128 a b len = anemone_memcmp8 a b len :=
  memcmp128_go_eq a b len 0

/-- C4: each equality variant returns exactly zero if and only if the
first `len` bytes of the two buffers are identical (so it is nonzero
whenever they differ at some index below `len`). -/
theorem claim_C4_memeq_zero_iff (a b : Nat → Nat) (len : Nat) :
    (anemone_memeq8 a b len = 0 ↔ ∀ i, i < len → byteAt a i = byteAt b i) ∧
    (anemone_memeq64 a b len = 0 ↔ ∀ i, i < len → byteAt a i = byteAt b i) ∧
    (anemone_memeq128 a b len = 0 ↔ ∀ i, i < len → byteAt a i = byteAt b i) :=
  ⟨memcmp8_zero_iff0 a b len, memeq64_zero_iff0 a b len,
   memeq128_zero_iff0 a b len⟩

/-- C5: padding independence. If two runs agree on the first `len`
bytes of both buffers (the bytes at or beyond `len` may differ
arbitrarily), every ordering and equality variant returns identical
results in the two runs. -/
theorem claim_C5_padding_independence (a1 a2 b1 b2 : Nat → Nat) (len : Nat)
    (hA : ∀ i, i < len → a1 i = a2 i) (hB : ∀ i, i < len → b1 i = b2 i) :
    anemone_memcmp8 a1 b1 len = anemone_memcmp8 a2 b2 len ∧
    anemone_memcmp64 a1 b1 len = anemone_memcmp64 a2 b2 len ∧
    anemone_memcmp128 a1 b1 len = anemone_memcmp128 a2 b2 len ∧
    anemone_memcmp a1 b1 len = anemone_memcmp a2 b2 len ∧
    anemone_memeq8 a1 b1 len = anemone_memeq8 a2 b2 len ∧
    anemone_memeq64 a1 b1 len = anemone_memeq64 a2 b2 len ∧
    anemone_memeq128 a1 b1 len = anemone_memeq128 a2 b2 len ∧
    anemone_memeq a1 b1 len = anemone_memeq a2 b2 len := by
  have hA0 : ∀ i, i < len → a1 (0 + i) = a2 (0 + i) := fun i hi => by
    simpa using hA i hi
  have hB0 : ∀ i, i < len → b1 (0 + i) = b2 (0 + i) := fun i hi => by
    simpa using hB i hi
  have h8 : anemone_memcmp8 a1 b1 len = anemone_memcmp8 a2 b2 len :=
    memcmp8_from_congr len 0 hA0 hB0
  have h64 : anemone_memcmp64 a1 b1 len = anemone_memcmp64 a2 b2 len := by
    have hr1 := memcmp64_go_range a1 b1 len 0
    have hr2 := memcmp64_go_range a2 b2 len 0
    have hs1 := memcmp64_go_sign a1 b1 len 0
    have hs2 := memcmp64_go_sign a2 b2 len 0
    have h8g : memcmp8_from a1 b1 0 len = memcmp8_from a2 b2 0 len := h8
    show memcmp64_go a1 b1 0 len = memcmp64_go a2 b2 0 len
    omega
  have hP := byte_pred_congr hA hB
  have h64e : anemone_memeq64 a1 b1 len = anemone_memeq64 a2 b2 len :=
    eqval_congr (memeq64_go_range a1 b1 len 0) (memeq64_go_range a2 b2 len 0)
      (memeq64_zero_iff0 a1 b1 len) (memeq64_zero_iff0 a2 b2 len) hP
  have h128 : anemone_memcmp128 a1 b1 len = anemone_memcmp128 a2 b2 len := by
    rw [show anemone_memcmp128 a1 b1 len = anemone_memcmp8 a1 b1 len from
        memcmp128_go_eq a1 b1 len 0,
      show anemone_memcmp128 a2 b2 len = anemone_memcmp8 a2 b2 len from
        memcmp128_go_eq a2 b2 len 0]
    exact h8
  have h128e : anemone_memeq128 a1 b1 len = anemone_memeq128 a2 b2 len :=
    eqval_congr (memeq128_go_range a1 b1 len 0) (memeq128_go_range a2 b2 len 0)
      (memeq128_zero_iff0 a1 b1 len) (memeq128_zero_iff0 a2 b2 len) hP
  exact ⟨h8, h64, h128, h64, h8, h64e, h128e, h64e⟩

/-- C5 witness: buffers of length 3 that agree on the first 3 bytes but
differ in the padding region give identical results for every variant. -/
theorem claim_C5_witness :
    (∀ i, i < 3 → bufOf [1, 2, 3, 200] i = bufOf [1, 2, 3, 9, 9] i) ∧
    (∀ i, i < 3 → bufOf [1, 2, 4] i = bufOf [1, 2, 4, 77] i) ∧
    (anemone_memcmp8 (bufOf [1, 2, 3, 200]) (bufOf [1, 2, 4]) 3 =
      anemone_memcmp8 (bufOf [1, 2, 3, 9, 9]) (bufOf [1, 2, 4, 77]) 3 ∧
     anemone_memcmp64 (bufOf [1, 2, 3, 200]) (bufOf [1, 2, 4]) 3 =
      anemone_memcmp64 (bufOf [1, 2, 3, 9, 9]) (bufOf [1, 2, 4, 77]) 3 ∧
     anemone_memcmp128 (bufOf [1, 2, 3, 200]) (bufOf [1, 2, 4]) 3 =
      anemone_memcmp128 (bufOf [1, 2, 3, 9, 9]) (bufOf [1, 2, 4, 77]) 3 ∧
     anemone_memcmp (bufOf [1, 2, 3, 200]) (bufOf [1, 2, 4]) 3 =
      anemone_memcmp (bufOf [1, 2, 3, 9, 9]) (bufOf [1, 2, 4, 77]) 3 ∧
     anemone_memeq8 (bufOf [1, 2, 3, 200]) (bufOf [1, 2, 4]) 3 =
      anemone_memeq8 (bufOf [1, 2, 3, 9, 9]) (bufOf [1, 2, 4, 77]) 3 ∧
     anemone_memeq64 (bufOf [1, 2, 3, 200]) (bufOf [1, 2, 4]) 3 =
      anemone_memeq64 (bufOf [1, 2, 3, 9, 9]) (bufOf [1, 2, 4, 77]) 3 ∧
     anemone_memeq128 (bufOf [1, 2, 3, 200]) (bufOf [1, 2, 4]) 3 =
      anemone_memeq128 (bufOf [1, 2, 3, 9, 9]) (bufOf [1, 2, 4, 77]) 3 ∧
     anemone_memeq (bufOf [1, 2, 3, 200]) (bufOf [1, 2, 4]) 3 =
      anemone_memeq (bufOf [1, 2, 3, 9, 9]) (bufOf [1, 2, 4, 77]) 3) :=
  ⟨by decide, by decide,
   claim_C5_padding_independence (bufOf [1, 2, 3, 200]) (bufOf [1, 2, 3, 9, 9])
     (bufOf [1, 2, 4]) (bufOf [1, 2, 4, 77]) 3 (by decide) (by decide)⟩

/-- C6: swapping the buffer arguments negates the ordering result:
the byte and vector tiers negate exactly, and the word tier has the
opposite sign (zero exactly when the other direction is zero). -/
theorem claim_C6_antisymmetry (a b : Nat → Nat) (len : Nat) :
    anemone_memcmp8 a b len = -anemone_memcmp8 b a len ∧
    anemone_memcmp128 a b len = -anemone_memcmp128 b a len ∧
    (anemone_memcmp64 a b len = 0 ↔ anemone_memcmp64 b a len = 0) ∧
    (anemone_memcmp64 a b len < 0 ↔ 0 < anemone_memcmp64 b a len) ∧
    (0 < anemone_memcmp64 a b len ↔ anemone_memcmp64 b a len < 0) := by
  have h8 : anemone_memcmp8 a b len = -anemone_memcmp8 b a len :=
    memcmp8_from_antisym a b len 0
  refine ⟨h8, ?_, ?_, ?_, ?_⟩
  · rw [show anemone_memcmp128 a b len = anemone_memcmp8 a b len from
        memcmp128_go_eq a b len 0,
      show anemone_memcmp128 b a len = anemone_memcmp8 b a len from
        memcmp128_go_eq b a len 0]
    exact h8
  all_goals
    have hs1 := memcmp64_go_sign a b len 0
    have hs2 := memcmp64_go_sign b a len 0
    have h8g : memcmp8_from a b 0 len = -memcmp8_from b a 0 len := h8
    show _
  · show memcmp64_go a b 0 len = 0 ↔ memcmp64_go b a 0 len = 0
    omega
  · show memcmp64_go a b 0 len < 0 ↔ 0 < memcmp64_go b a 0 len
    omega
  · show 0 < memcmp64_go a b 0 len ↔ memcmp64_go b a 0 len < 0
    omega

/-- C7 counterexample: at `len = 8` the full-word loop performs 0
iterations, not `8 / 8 = 1`, and the tail path is reached with
`rem = 8`, which is not between 0 and 7. -/
theorem claim_C7_counterexample :
    ¬ (memcmp64_iters 8 = 8 / 8 ∧ memcmp64_tailRem 8 ≤ 7) := by
  intro h
  have h1 : memcmp64_iters 8 = 0 := by
    rw [memcmp64_iters]
    norm_num
  have h2 : memcmp64_tailRem 8 = 8 := by
    rw [memcmp64_tailRem]
    norm_num
  omega

/-- C7 amended: the full-word loop runs `(len - 1) / 8` iterations
(0 when `len = 0`), so the tail path is reached with
`rem = len - 8 * ((len - 1) / 8)`: `rem = len` for `len ≤ 8` (the loop
is skipped entirely), and `1 ≤ rem ≤ 8` for `len > 0` — in particular
`rem = 8`, not 0-7, whenever `len` is a positive multiple of 8. -/
theorem claim_C7_amended (len : Nat) :
    memcmp64_iters len = (len - 1) / 8 ∧
    memcmp64_tailRem len = len - 8 * ((len - 1) / 8) ∧
    (len ≤ 8 → memcmp64_iters len = 0 ∧ memcmp64_tailRem len = len) ∧
    (0 < len → 1 ≤ memcmp64_tailRem len ∧ memcmp64_tailRem len ≤ 8) := by
  have h1 := memcmp64_iters_eq len
  have h2 := memcmp64_tailRem_eq len
  refine ⟨h1, h2, fun hle => ?_, fun hpos => ?_⟩
  · have hz : (len - 1) / 8 = 0 := Nat.div_eq_of_lt (by omega)
    constructor
    · rw [h1, hz]
    · rw [h2, hz]
      omega
  · have hle : 8 * ((len - 1) / 8) ≤ len - 1 := Nat.mul_div_le (len - 1) 8
    have hdm := Nat.div_add_mod (len - 1) 8
    have hm : (len - 1) % 8 < 8 := Nat.mod_lt _ (by norm_num)
    omega

/-- C7 amended witness: at `len = 5` the loop is skipped and the tail
runs with `rem = 5`; the closed forms and the range bounds hold. -/
theorem claim_C7_witness :
    memcmp64_iters 5 = (5 - 1) / 8 ∧
    memcmp64_tailRem 5 = 5 - 8 * ((5 - 1) / 8) ∧
    (memcmp64_iters 5 = 0 ∧ memcmp64_tailRem 5 = 5) ∧
    (1 ≤ memcmp64_tailRem 5 ∧ memcmp64_tailRem 5 ≤ 8) :=
  ⟨(claim_C7_amended 5).1, (claim_C7_amended 5).2.1,
   (claim_C7_amended 5).2.2.1 (by norm_num),
   (claim_C7_amended 5).2.2.2 (by norm_num)⟩

/-- C8: the public dispatchers forward to the word tier: `anemone_memcmp`
returns exactly `anemone_memcmp64` and `anemone_memeq` exactly
`anemone_memeq64` on all arguments. -/
theorem claim_C8_dispatchers (a b : Nat → Nat) (len : Nat) :
    anemone_memcmp a b len = anemone_memcmp64 a b len ∧
    anemone_memeq a b len = anemone_memeq64 a b len :=
  ⟨rfl, rfl⟩

/-- C9: every ordering and equality variant returns exactly 0 at
`len = 0`, and the word-tier comparator performs no buffer load there
(its load count is zero). -/
theorem claim_C9_zero_length (a b : Nat → Nat) :
    anemone_memcmp8 a b 0 = 0 ∧ anemone_memcmp64 a b 0 = 0 ∧
    anemone_memcmp128 a b 0 = 0 ∧ anemone_memcmp a b 0 = 0 ∧
    anemone_memeq8 a b 0 = 0 ∧ anemone_memeq64 a b 0 = 0 ∧
    anemone_memeq128 a b 0 = 0 ∧ anemone_memeq a b 0 = 0 ∧
    memcmp64_loads a b 0 0 = 0 :=
  ⟨rfl, memcmp64_go_zero a b 0, memcmp128_go_zero a b 0,
   memcmp64_go_zero a b 0, rfl, memeq64_go_zero a b 0,
   memeq128_go_zero a b 0, memeq64_go_zero a b 0,
   memcmp64_loads_zero a b 0⟩

/-- C10: the word-tier ordering comparator, and hence the default
dispatcher, only ever returns -1, 0 or 1. -/
theorem claim_C10_word_tier_range (a b : Nat → Nat) (len : Nat) :
    (anemone_memcmp64 a b len = -1 ∨ anemone_memcmp64 a b len = 0 ∨
      anemone_memcmp64 a b len = 1) ∧
    (anemone_memcmp a b len = -1 ∨ anemone_memcmp a b len = 0 ∨
      anemone_memcmp a b len = 1) :=
  ⟨memcmp64_go_range a b len 0, memcmp64_go_range a b len 0⟩

end Anemone
